import Mathlib

/-!
Verification development for the DigiSim gate-level digital logic simulator
(src/digisim.cpp). The C++ classes and functions are shallowly embedded as
Lean definitions; theorems below settle the specification claims about them.
-/

set_option maxHeartbeats 1000000

namespace DigiSim

/-- Logic values allowed for the circuit (digisim.cpp line 86):
`enum LogicValue { ZERO, ONE, X, U, Z }`. -/
inductive LogicValue where
  | ZERO
  | ONE
  | X
  | U
  | Z
deriving DecidableEq, Repr, Inhabited

open LogicValue

/-- Circuit node (class `Node`, digisim.cpp lines 96-129): a name, the current
logic value `CurValue` (initialised to ZERO by the constructor), and the
stuck-at control flag `StuckAtOp` (0 = free, 1 = locked). -/
structure Node where
  name : String
  CurValue : LogicValue
  StuckAtOp : Int
deriving DecidableEq, Repr, Inhabited

/-- `Node::ReadValue` (line 108): returns the current value. -/
def Node.ReadValue (n : Node) : LogicValue := n.CurValue

/-- `Node::MakeStuckAt` (lines 113-116): sets `CurValue = y` and `StuckAtOp = 1`. -/
def Node.MakeStuckAt (n : Node) (y : LogicValue) : Node :=
  { n with CurValue := y, StuckAtOp := 1 }

/-- `Node::UndoStuckAt` (lines 119-121): resets `StuckAtOp` to 0, value untouched. -/
def Node.UndoStuckAt (n : Node) : Node :=
  { n with StuckAtOp := 0 }

/-- `Node::UpdateValue` (lines 125-128):
`CurValue = (StuckAtOp == 0) ? n : CurValue`. -/
def Node.UpdateValue (n : Node) (v : LogicValue) : Node :=
  { n with CurValue := if n.StuckAtOp = 0 then v else n.CurValue }

/-- The six combinational gate classes of digisim.cpp (`ANDgate`, `ORgate`,
`XORgate`, `NANDgate`, `NORgate`, `XNORgate`) differ only in the identity
element, the bit operation of the accumulation loop, and a final negation;
they are embedded as one structure tagged with this kind. -/
inductive GateKind where
  | AND
  | OR
  | XOR
  | NAND
  | NOR
  | XNOR
deriving DecidableEq, Repr, Inhabited

/-- State of a combinational gate (`class ComboLogicGate` and its six
subclasses, digisim.cpp lines 159-847). `inputs` are the up-to-8 input node
pointers (`NULL` = `none`), dereferenced to the node states; `inputValues` is
the ever-growing `vector<int>` the `Calculate`/`PreCalc` loops push into. -/
structure ComboLogicGate where
  kind : GateKind
  output : Node
  inputs : List (Option Node)
  inputNames : List String
  inputValues : List Nat
  rise_Time : Int
  fall_Time : Int
  outputValue : Nat
  prevoutputValue : Nat
  outVal : LogicValue
  delay : Int
deriving DecidableEq, Repr, Inhabited

/-- The per-input read in every gate loop (e.g. line 273):
`int nodeValue = ((inputs[i]->ReadValue()) == ZERO) ? 0 : 1;`. -/
def nodeBit (nd : Node) : Nat :=
  if nd.ReadValue = ZERO then 0 else 1

/-- Initial accumulator value of the gate loop: 1 for AND/NAND
(lines 269, 573), 0 for OR/NOR/XOR/XNOR (lines 370, 472, 676, 779). -/
def gateInit : GateKind → Nat
  | .AND | .NAND => 1
  | _ => 0

/-- The accumulation step of the gate loop: `nodeValue & tempoutputValue`
for AND/NAND, `|` for OR/NOR, `^` for XOR/XNOR. -/
def gateOp (k : GateKind) (acc bit : Nat) : Nat :=
  match k with
  | .AND | .NAND => bit &&& acc
  | .OR | .NOR => bit ||| acc
  | .XOR | .XNOR => bit ^^^ acc

/-- Whether the gate negates the accumulated value at the end
(`tempoutputValue = (tempoutputValue == 1) ? 0 : 1;`, lines 582, 685, 788). -/
def gateNeg : GateKind → Bool
  | .NAND | .NOR | .XNOR => true
  | _ => false

/-- The accumulation loop over the 8 input slots shared by `Calculate` and
`PreCalc` of every gate kind (`if (inputs[i] != NULL) { ... }`). -/
def rawFold (k : GateKind) (ins : List (Option Node)) : Nat :=
  ins.foldl
    (fun acc o =>
      match o with
      | none => acc
      | some nd => gateOp k acc (nodeBit nd))
    (gateInit k)

/-- The complete `tempoutputValue` computation of `Calculate`/`PreCalc`,
including the final negation for NAND/NOR/XNOR. -/
def calcTemp (k : GateKind) (ins : List (Option Node)) : Nat :=
  let t := rawFold k ins
  if gateNeg k then (if t = 1 then 0 else 1) else t

/-- `Calculate()` of each gate kind (AND lines 267-295, OR 368-396,
XOR 470-498, NAND 571-600, NOR 674-703, XNOR 777-806): stashes
`prevoutputValue = outputValue`, recomputes `tempoutputValue`, sets `delay`
to `fall_Time` on a 1 to 0 transition, `rise_Time` on a 0 to 1 transition and
0 otherwise, then commits `outputValue` and `outVal`. -/
def ComboLogicGate.Calculate (g : ComboLogicGate) : ComboLogicGate :=
  let temp := calcTemp g.kind g.inputs
  { g with
    prevoutputValue := g.outputValue,
    inputValues := g.inputValues ++ (g.inputs.filterMap id).map nodeBit,
    delay :=
      if temp = 0 ∧ g.outputValue = 1 then g.fall_Time
      else if temp = 1 ∧ g.outputValue = 0 then g.rise_Time
      else 0,
    outputValue := temp,
    outVal := if temp = 0 then ZERO else ONE }

/-- `PreCalc()` of each gate kind (AND lines 300-310 etc.): recomputes the
output speculatively and returns 0 if it equals the committed `outputValue`,
1 otherwise. The loop also pushes into `inputValues`. -/
def ComboLogicGate.PreCalc (g : ComboLogicGate) : Nat × ComboLogicGate :=
  (if calcTemp g.kind g.inputs = g.outputValue then 0 else 1,
   { g with inputValues := g.inputValues ++ (g.inputs.filterMap id).map nodeBit })

/-- `RevertOutput()` of each gate kind (AND lines 315-317 etc.):
`outputValue = prevoutputValue`. -/
def ComboLogicGate.RevertOutput (g : ComboLogicGate) : ComboLogicGate :=
  { g with outputValue := g.prevoutputValue }

/-- `ReadOutput()` of each gate kind: returns `outVal`. -/
def ComboLogicGate.ReadOutput (g : ComboLogicGate) : LogicValue := g.outVal

/-- D flip-flop (class `DFF`, digisim.cpp lines 177-234). The node pointers
D, CLK, Q, Qn are dereferenced to node states. `outQ`/`outQn` are not
initialised by the C++ constructor. -/
structure DFFComp where
  D : Node
  CLK : Node
  Q : Node
  Qn : Node
  lastClockState : Bool
  setupTime : ℚ
  holdTime : ℚ
  outQ : LogicValue
  outQn : LogicValue
  Dchange_time : Int
  CLKchange_time : Int
deriving DecidableEq, Repr

/-- `DFF::Calculate` (lines 206-222), state part only (the setup-violation
report goes to standard output): on a rising edge (`lastClockState == false`
and CLK value ONE) latch `outQ = D`, `outQn = ¬D` and record the clock time;
always update `lastClockState`. -/
def DFFComp.Calculate (ff : DFFComp) (CLKtime : Int) : DFFComp :=
  let ff1 :=
    if ff.lastClockState = false ∧ ff.CLK.CurValue = ONE then
      { ff with
        outQ := ff.D.CurValue,
        outQn := if ff.D.CurValue = ONE then ZERO else ONE,
        CLKchange_time := CLKtime }
    else ff
  { ff1 with lastClockState := ff1.CLK.CurValue = ONE }

/-- Event object (class `Event`, digisim.cpp lines 858-872). The component
and node pointers are embedded as an optional component index and an optional
node name. -/
structure Event where
  eventComp : Option Nat
  eventNode : Option String
  eventTime : Int
  nextVal : LogicValue
  CompNode : Nat
deriving DecidableEq, Repr, Inhabited

/-- `struct LessThanTime` (lines 877-883): the priority-queue comparator,
`lhs.eventTime > rhs.eventTime`. It inspects only the scheduled time. -/
def LessThanTime (lhs rhs : Event) : Bool :=
  decide (lhs.eventTime > rhs.eventTime)

/-- Read the heap array at index `i` (out of range gives the default event;
all uses below stay in range). -/
def elAt (l : List Event) (i : Nat) : Event :=
  l.getD i default

/-- The sift-up loop `std::__push_heap` of libstdc++, which implements the
`push_heap` called by `std::priority_queue::push` (class `EventQueue`,
digisim.cpp lines 889-934, holds such a `priority_queue` ordered by
`LessThanTime`): the value `v` starts at index `hole`; while the parent
compares `LessThanTime`-less than `v` the parent moves down and the hole
moves up; finally `v` is stored at the hole. The `fuel` argument only makes
the recursion structural; every call below supplies `fuel > hole`, and the
hole index strictly decreases at each step, so the fuel never runs out. -/
def pushHeapAux (fuel : Nat) (l : List Event) (hole : Nat) (v : Event) : List Event :=
  match fuel with
  | 0 => l.set hole v
  | fuel + 1 =>
    if hole = 0 then l.set 0 v
    else if LessThanTime (elAt l ((hole - 1) / 2)) v then
      pushHeapAux fuel (l.set hole (elAt l ((hole - 1) / 2))) ((hole - 1) / 2) v
    else l.set hole v

/-- `EventQueue::Append` = `priority_queue::push`: append the new event and
sift it up from the last position. -/
def pushHeap (l : List Event) (v : Event) : List Event :=
  pushHeapAux (l.length + 1) (l ++ [v]) l.length v

/-- The child chosen by `std::__adjust_heap` of libstdc++ to move up into
the hole (`__secondchild = 2 * (__secondchild + 1)` then decremented when
the right child compares `LessThanTime`-less than the left): the child with
the earlier scheduled time, ties going to the right child. -/
def minChild (l : List Event) (hole : Nat) : Nat :=
  if LessThanTime (elAt l (2 * (hole + 1))) (elAt l (2 * (hole + 1) - 1)) then
    2 * (hole + 1) - 1
  else 2 * (hole + 1)

/-- The hole-descent phase of `std::__adjust_heap` of libstdc++ (called by
`pop_heap` with `topIndex = 0`): while the hole has a right child inside the
working range (`secondChild < (len - 1) / 2` on entry), the `minChild` moves
up and the hole descends to it; if the range has even length and the hole
ends at the unique node with only a left child, that last child moves up.
Returns the array and the final (leaf) hole index. `fuel` only makes the
recursion structural; the hole strictly increases and stays below `len`, so
`fuel ≥ len - hole` never runs out. -/
def adjustDown (fuel : Nat) (l : List Event) (hole len : Nat) : List Event × Nat :=
  match fuel with
  | 0 => (l, hole)
  | fuel + 1 =>
    if hole < (len - 1) / 2 then
      adjustDown fuel (l.set hole (elAt l (minChild l hole))) (minChild l hole) len
    else if len % 2 = 0 ∧ hole = (len - 2) / 2 then
      (l.set hole (elAt l (2 * (hole + 1) - 1)), 2 * (hole + 1) - 1)
    else (l, hole)

/-- `EventQueue::Pop` = `priority_queue::pop`: `std::pop_heap` moves the last
element out as the sift value, copies the root to the last slot (which
`pop_back` then discards), lets the hole descend from the root to a leaf and
sifts the old last element up from there. -/
def popHeap (l : List Event) : List Event :=
  match l with
  | [] => []
  | [_] => []
  | _ :: _ :: _ =>
    let len := l.length - 1
    let v := elAt l len
    let p := adjustDown len (l.take len) 0 len
    pushHeapAux (p.2 + 1) p.1 p.2 v

/-- `EventQueue::Top` = `priority_queue::top`: the root of the heap. -/
def topHeap (l : List Event) : Event :=
  elAt l 0

/-- Repeated Top-then-Pop, as the simulation loops do
(`while (!(queue.PQ).empty()) { Event nextEvent = queue.Top(); ... queue.Pop(); }`,
digisim.cpp lines 1247-1321): the sequence of events the queue hands out. -/
def drainHeapFuel : Nat → List Event → List Event
  | 0, _ => []
  | fuel + 1, l =>
    if l = [] then [] else topHeap l :: drainHeapFuel fuel (popHeap l)

/-- Drain the whole queue (each Pop removes exactly one element, so
`l.length` steps empty it). -/
def drainHeap (l : List Event) : List Event :=
  drainHeapFuel l.length l

/-- The binary-heap invariant of the `std::priority_queue` array with
comparator `LessThanTime`: every parent's scheduled time is at most its
children's. -/
def IsHeap (l : List Event) : Prop :=
  ∀ i, 0 < i → i < l.length →
    (elAt l ((i - 1) / 2)).eventTime ≤ (elAt l i).eventTime

/-- Four events with equal scheduled time 5, distinguished by their target
node name, in insertion order. Used to test the FIFO tie-break claim. -/
def tieEvent (k : Nat) : Event :=
  ⟨none, some (toString k), 5, ZERO, 1⟩

/-- Spec-side reading of a logic value as a bit (`0` maps to false,
`1` to true). -/
def toBitSpec : LogicValue → Bool
  | ONE => true
  | _ => false

/-- Spec-side boolean functions (spec section 4.2): AND = conjunction of
present inputs, OR = disjunction, XOR = parity, NAND/NOR/XNOR = complement;
with zero present inputs the identity element is returned. -/
def specReduce (k : GateKind) (bs : List Bool) : Bool :=
  match k with
  | .AND => bs.foldl (· && ·) true
  | .OR => bs.foldl (· || ·) false
  | .XOR => bs.foldl xor false
  | .NAND => !(bs.foldl (· && ·) true)
  | .NOR => !(bs.foldl (· || ·) false)
  | .XNOR => !(bs.foldl xor false)

/-- The bits currently held by exactly the present (non-NULL) inputs of a
gate. -/
def specBits (g : ComboLogicGate) : List Bool :=
  (g.inputs.filterMap id).map (fun nd => toBitSpec nd.CurValue)

/-- The boolean operation underlying each gate kind, for relating the
numeric loop to `specReduce`. -/
def specOp (k : GateKind) (a b : Bool) : Bool :=
  match k with
  | .AND | .NAND => a && b
  | .OR | .NOR => a || b
  | .XOR | .XNOR => xor a b

/-- The boolean identity element of each gate kind. -/
def specInit : GateKind → Bool
  | .AND | .NAND => true
  | _ => false

/-- What claim C4 asserts of one `Calculate()` call: the committed output is
the spec boolean function of the present input bits, and `delay` is
`rise_Time` on a 0 to 1 transition of the committed output, `fall_Time` on a
1 to 0 transition, and 0 when the committed output is unchanged. -/
def GateEvalSpec (g : ComboLogicGate) : Prop :=
  (g.Calculate.outputValue = if specReduce g.kind (specBits g) then 1 else 0) ∧
  (g.Calculate.outVal = if specReduce g.kind (specBits g) then ONE else ZERO) ∧
  (g.Calculate.outputValue = g.outputValue → g.Calculate.delay = 0) ∧
  (g.outputValue = 0 → g.Calculate.outputValue = 1 → g.Calculate.delay = g.rise_Time) ∧
  (g.outputValue = 1 → g.Calculate.outputValue = 0 → g.Calculate.delay = g.fall_Time)

/-- A concrete NAND gate (two present inputs holding ONE and ZERO, one
absent slot) used to witness the gate-evaluation theorem. -/
def sampleGate : ComboLogicGate :=
  { kind := .NAND,
    output := ⟨"Y", ZERO, 0⟩,
    inputs := [some ⟨"A", ONE, 0⟩, none, some ⟨"B", ZERO, 0⟩],
    inputNames := ["A", "B"],
    inputValues := [],
    rise_Time := 2,
    fall_Time := 3,
    outputValue := 0,
    prevoutputValue := 0,
    outVal := ZERO,
    delay := 0 }

/-- Collapse a node value to the two-valued reading the gate loops perform:
ZERO stays ZERO, anything else (ONE, X, U, Z) becomes ONE. -/
def collapseInput : Option Node → Option Node
  | none => none
  | some nd => some { nd with CurValue := if nd.CurValue = ZERO then ZERO else ONE }

/-- The same gate with every input value collapsed to its two-valued
reading. -/
def collapseInputs (g : ComboLogicGate) : ComboLogicGate :=
  { g with inputs := g.inputs.map collapseInput }

/-- The name-level connectivity a `Circuit` holds after construction
(digisim.cpp lines 945-1098): the node-name set, the array of combinational
gates and the array of DFFs. -/
structure CircuitNet where
  nodeNames : List String
  comps : List ComboLogicGate
  dffs : List DFFComp

/-- `Circuit::FindIOs` (lines 1122-1160), output side: the number of
combinational components whose `ReadOutputName()` equals the node name.
The loop runs over `comps[j]` for `j < compCnt` only. -/
def output_occurances (c : CircuitNet) (nm : String) : Nat :=
  c.comps.countP (fun g => g.output.name == nm)

/-- `Circuit::FindIOs` (lines 1122-1160), input side: occurrences of the
node name among `ReadInputNames()` of the combinational components. -/
def input_occurances (c : CircuitNet) (nm : String) : Nat :=
  (c.comps.map (fun g => g.inputNames.countP (fun s => s == nm))).sum

/-- The input-node set computed by `FindIOs`: node names with zero
output occurrences. -/
def inputnodes (c : CircuitNet) : List String :=
  c.nodeNames.filter (fun nm => output_occurances c nm == 0)

/-- The output-node set computed by `FindIOs`: node names with zero
input occurrences. -/
def outputnodes (c : CircuitNet) : List String :=
  c.nodeNames.filter (fun nm => input_occurances c nm == 0)

/-- Claim C2's notion for the input side: the node never appears as the
output of any gate or flip-flop (a DFF's outputs being Q and Qn). -/
def NeverComponentOutput (c : CircuitNet) (nm : String) : Prop :=
  (∀ g ∈ c.comps, g.output.name ≠ nm) ∧
  (∀ d ∈ c.dffs, d.Q.name ≠ nm ∧ d.Qn.name ≠ nm)

/-- Claim C2's notion for the output side: the node never appears as an
input to any gate or flip-flop (a DFF's inputs being D and CLK). -/
def NeverComponentInput (c : CircuitNet) (nm : String) : Prop :=
  (∀ g ∈ c.comps, nm ∉ g.inputNames) ∧
  (∀ d ∈ c.dffs, d.D.name ≠ nm ∧ d.CLK.name ≠ nm)

/-- The circuit built from the netlist line `Q .DFF 1 1 D CLK Q Qn`: no
combinational gates, one DFF, the four nodes created in reading order with
initial value ZERO. -/
def cDff : CircuitNet :=
  { nodeNames := ["CLK", "D", "Q", "Qn"],
    comps := [],
    dffs := [{ D := ⟨"D", ZERO, 0⟩, CLK := ⟨"CLK", ZERO, 0⟩,
               Q := ⟨"Q", ZERO, 0⟩, Qn := ⟨"Qn", ZERO, 0⟩,
               lastClockState := false, setupTime := 1, holdTime := 1,
               outQ := ZERO, outQn := ZERO,
               Dchange_time := 0, CLKchange_time := 0 }] }

/-- One stimulus-file record `<time> <node_name> <value>`
(digisim.cpp lines 1219-1243). -/
structure StimRec where
  time : Int
  input : String
  value : String
deriving DecidableEq, Repr

/-- The stimulus value parse of both simulators (lines 1226-1234 and
1376-1384): `"0"` gives ZERO, `"1"` gives ONE, any other token gives Z. -/
def parseStimValue (s : String) : LogicValue :=
  if s = "0" then ZERO else if s = "1" then ONE else Z

/-- What holds of a non-`0`/`1` stimulus token (amended claim C7): it parses
to Z, and firing the queued update on an unlocked node sets that node's
value to Z. -/
def StimNonBitSpec (s : String) (n : Node) : Prop :=
  parseStimValue s = Z ∧
  (n.StuckAtOp = 0 → (n.UpdateValue (parseStimValue s)).CurValue = Z)

/-- The circuit state `TimingSimulation` reaches just before its main event
loop: the node set and the event queue. -/
structure TimingSimState where
  nodes : List Node
  queue : List Event
deriving DecidableEq, Repr

/-- The pre-main-loop phase of `Circuit::TimingSimulation` (digisim.cpp
lines 1197-1243): every combinational gate is `Calculate`d and, when its
delay is non-zero, a NodeUpdate for its output is queued at time = delay;
the DFF seeding block (lines 1213-1216) is commented out in the source, so
DFF outputs are not seeded; then each stimulus record queues a NodeUpdate on
every node of matching name. -/
def timingInit (nodes : List Node) (comps : List ComboLogicGate)
    (stim : List StimRec) : TimingSimState :=
  let cs := comps.map ComboLogicGate.Calculate
  let initEvents := cs.filterMap fun g =>
    if g.delay ≠ 0 then some ⟨none, some g.output.name, g.delay, g.ReadOutput, 1⟩
    else none
  let stimEvents := (stim.map fun r =>
    (nodes.filter fun nd => nd.name == r.input).map fun nd =>
      Event.mk none (some nd.name) r.time (parseStimValue r.value) 1).flatten
  { nodes := nodes, queue := (initEvents ++ stimEvents).foldl pushHeap [] }

/-- The value a named node holds in a simulation state. -/
def nodeValueIn (st : TimingSimState) (nm : String) : LogicValue :=
  match st.nodes.find? (fun nd => nd.name == nm) with
  | some nd => nd.CurValue
  | none => Z

/-- Boolean complement on logic bits (identity on the reserved values). -/
def complementLV : LogicValue → LogicValue
  | ZERO => ONE
  | ONE => ZERO
  | v => v

/-- The nodes created while parsing the netlist `Q .DFF 1 1 D CLK Q Qn`
(all initialised to ZERO, not stuck). -/
def dffNodes : List Node :=
  [⟨"D", ZERO, 0⟩, ⟨"CLK", ZERO, 0⟩, ⟨"Q", ZERO, 0⟩, ⟨"Qn", ZERO, 0⟩]

/-- State of a timing simulation of that one-DFF netlist with an empty
stimulus file, at the start of the main loop. -/
def c5State : TimingSimState :=
  timingInit dffNodes [] []

/-- One trial record of the fault-vector generator
(`tuple<int,set<Circuit*>,vector<tuple<string,int>>>`, digisim.cpp
line 1790): the detected-fault count, the detected faulty circuits
(as indices), and the test vector. -/
structure TrialResponse where
  detectedFaults : Nat
  bustedCircuits : List Nat
  testInputs : List (String × Nat)
deriving DecidableEq, Repr, Inhabited

/-- `std::max_element` over the responses with comparator
`get<0>(x) < get<0>(y)` (lines 1816-1820): keeps the current maximum and
replaces it only on a strictly larger count, so the first maximum wins. -/
def maxElementAux (cur : TrialResponse) : List TrialResponse → TrialResponse
  | [] => cur
  | x :: xs => maxElementAux (if cur.detectedFaults < x.detectedFaults then x else cur) xs

/-- The mutable state of `FaultVectorGenerator::Generate` (lines 1770-1848):
the remaining faulty circuits, the cumulative coverage, the accepted-vector
count and the vectors written to `FaultVectors.txt`. -/
structure GenState where
  faultyCircuits : List Nat
  total_coverage : ℚ
  vector_cnt : Nat
  emitted : List (List (String × Nat))
deriving DecidableEq, Repr

/-- One iteration body of the `Generate` while-loop (lines 1784-1845), given
the trial responses drawn this iteration: select the `max_element`, add its
count over `total_faults` to the coverage, and if the count is non-zero
erase its detected circuits from the remaining set and append its vector to
the output. -/
def generateStep (st : GenState) (total_faults : Nat)
    (responses : List TrialResponse) : GenState :=
  match responses with
  | [] => st
  | r :: rs =>
    let largest := maxElementAux r rs
    let cov := st.total_coverage + (largest.detectedFaults : ℚ) / (total_faults : ℚ)
    if largest.detectedFaults ≠ 0 then
      { faultyCircuits := st.faultyCircuits.filter (fun c => c ∉ largest.bustedCircuits),
        total_coverage := cov,
        vector_cnt := st.vector_cnt + 1,
        emitted := st.emitted ++ [largest.testInputs] }
    else { st with total_coverage := cov }

/-- The `Generate` while-loop: `while ((required_coverage - total_coverage)
> 0.001)` (line 1784), consuming one batch of random trial responses per
iteration (the random draws are supplied as an input stream). -/
def generateLoop (required : ℚ) (total_faults : Nat) :
    List (List TrialResponse) → GenState → GenState
  | [], st => st
  | rsp :: rest, st =>
    if required - st.total_coverage > 1/1000 then
      generateLoop required total_faults rest (generateStep st total_faults rsp)
    else st

/-- Spec-side maximum detected-fault count of a trial list. -/
def maxDetected (l : List TrialResponse) : Nat :=
  (l.map (·.detectedFaults)).foldr max 0

/-- Spec-side selection: the first trial whose count attains the maximum
(the spec's "tie-broken by first observed"). -/
def firstMaxTrial (l : List TrialResponse) (dflt : TrialResponse) : TrialResponse :=
  match l.find? (fun t => t.detectedFaults == maxDetected l) with
  | some t => t
  | none => dflt

/-- Concrete generator data for the witness. -/
def trialA : TrialResponse := ⟨1, [7], [("A", 1), ("B", 1)]⟩

/-- Concrete generator state for the witness: two remaining faults, zero
coverage so far. -/
def genSt0 : GenState := ⟨[7, 8], 0, 0, []⟩

/-- Concrete generator state for the witness of the stop condition:
coverage 1 already reached. -/
def genSt1 : GenState := ⟨[], 1, 1, [[("A", 1)]]⟩

/-- The bit character the simulators write to the VCD file for a NodeUpdate
(lines 1259 and 1409): `'1'` iff the event's `nextVal` is ONE, else `'0'`. -/
def vcdBit (v : LogicValue) : Char :=
  if v = ONE then '1' else '0'

/-- Firing a NodeUpdate event in the simulation loops (timing lines
1251-1259, functional lines 1401-1409): the node value is updated through
`UpdateValue`, and the VCD record written is `#eventTime` followed by the
bit of the event's `nextVal`. -/
def fireNodeUpdate (nd : Node) (e : Event) : Node × Int × Char :=
  (nd.UpdateValue e.nextVal, e.eventTime, vcdBit e.nextVal)

/-- What claim C10 asserts of one NodeUpdate firing: the emitted bit comes
from the event's scheduled value; a locked node's value does not move; and
when the scheduled bit differs from the locked node's actual bit, the
waveform records a transition the node never takes. -/
def VcdRecordSpec (nd : Node) (e : Event) : Prop :=
  ((fireNodeUpdate nd e).2.2 = vcdBit e.nextVal) ∧
  (nd.StuckAtOp = 1 → (fireNodeUpdate nd e).1.CurValue = nd.CurValue) ∧
  (nd.StuckAtOp = 1 → vcdBit e.nextVal ≠ vcdBit nd.CurValue →
    (fireNodeUpdate nd e).2.2 ≠ vcdBit ((fireNodeUpdate nd e).1.CurValue))

/-- A node locked (stuck-at) at ZERO, for the witness. -/
def stuckNode : Node := ⟨"S", ZERO, 1⟩

/-- A NodeUpdate event scheduling value ONE at time 4 on that node, for the
witness. -/
def stuckEvent : Event := ⟨none, some "S", 4, ONE, 1⟩

/-- Claim C3: for every combinational gate in any state, `Calculate()`
followed by `RevertOutput()` leaves the committed output `outputValue`
exactly as it was before the `Calculate()` call. -/
theorem evaluate_then_revert (g : ComboLogicGate) :
    ((g.Calculate).RevertOutput).outputValue = g.outputValue := rfl

/-- While the stuck-at lock is held, any sequence of `UpdateValue` calls
moves neither the value nor the lock. -/
theorem foldl_update_locked (ws : List LogicValue) :
    ∀ n : Node, n.StuckAtOp ≠ 0 →
      (ws.foldl Node.UpdateValue n).CurValue = n.CurValue ∧
      (ws.foldl Node.UpdateValue n).StuckAtOp = n.StuckAtOp := by
  induction ws with
  | nil => exact fun n _ => ⟨rfl, rfl⟩
  | cons w ws ih =>
    intro n h
    have hupd : n.UpdateValue w = n := by
      simp [Node.UpdateValue, if_neg h]
    simpa [List.foldl_cons, hupd] using ih n h

/-- Claim C6: `MakeStuckAt y` sets the value to `y` and sets the lock;
while the lock is set every write is a no-op keeping the value chosen at
lock time; `UndoStuckAt` clears the lock and leaves the value unchanged. -/
theorem node_stuck_lock_spec :
    (∀ (n : Node) (y : LogicValue),
      (n.MakeStuckAt y).CurValue = y ∧ (n.MakeStuckAt y).StuckAtOp = 1) ∧
    (∀ (n : Node) (y : LogicValue) (ws : List LogicValue),
      (ws.foldl Node.UpdateValue (n.MakeStuckAt y)).CurValue = y ∧
      (ws.foldl Node.UpdateValue (n.MakeStuckAt y)).StuckAtOp = 1) ∧
    (∀ n : Node, n.UndoStuckAt.CurValue = n.CurValue ∧ n.UndoStuckAt.StuckAtOp = 0) := by
  refine ⟨fun n y => ⟨rfl, rfl⟩, fun n y ws => ?_, fun n => ⟨rfl, rfl⟩⟩
  have h := foldl_update_locked ws (n.MakeStuckAt y) (by simp [Node.MakeStuckAt])
  simpa [Node.MakeStuckAt] using h

/-- Claim C7 (amended): a stimulus value token other than `0` and `1` parses
to the reserved Z placeholder, and firing the queued update on an unlocked
node changes that node's value to Z. -/
theorem stim_value_z_spec (s : String) (n : Node) (h0 : s ≠ "0") (h1 : s ≠ "1") :
    StimNonBitSpec s n := by
  refine ⟨by simp [parseStimValue, h0, h1], fun hlock => ?_⟩
  simp [Node.UpdateValue, parseStimValue, h0, h1, hlock]

/-- Witness for the amended claim C7, at token `x` on an unlocked node. -/
theorem stim_value_z_spec_witness : StimNonBitSpec "x" ⟨"A", ZERO, 0⟩ :=
  stim_value_z_spec "x" ⟨"A", ZERO, 0⟩ (by decide) (by decide)

/-- Counterexample to claim C7 as stated: processing the record value token
`x` on an ordinary node holding ZERO changes the node's value (to Z), so the
record does not leave every node's value unchanged. -/
theorem stim_z_changes_node :
    parseStimValue "x" = Z ∧
    ((⟨"A", ZERO, 0⟩ : Node).UpdateValue (parseStimValue "x")).CurValue
      ≠ (⟨"A", ZERO, 0⟩ : Node).CurValue := by
  decide

/-- Claim C10: the VCD record written when a NodeUpdate fires takes its bit
from the event's `nextVal` (anything other than ONE printing as 0), not from
the node's value after the update; on a locked node the value does not move,
so a differing scheduled bit is recorded as a transition the node never
takes. -/
theorem vcd_record_from_nextVal (nd : Node) (e : Event) : VcdRecordSpec nd e := by
  have hlock : nd.StuckAtOp = 1 → (fireNodeUpdate nd e).1.CurValue = nd.CurValue := by
    intro h
    simp [fireNodeUpdate, Node.UpdateValue, h]
  refine ⟨rfl, hlock, fun h hne => ?_⟩
  rw [hlock h]
  exact hne

/-- Witness for claim C10: a node locked at ZERO receiving a scheduled ONE
at time 4. -/
theorem vcd_record_from_nextVal_witness : VcdRecordSpec stuckNode stuckEvent :=
  vcd_record_from_nextVal stuckNode stuckEvent

/-- A collapsed input reads as the same bit as the original input. -/
theorem nodeBit_collapse (nd : Node) :
    nodeBit { nd with CurValue := if nd.CurValue = ZERO then ZERO else ONE } = nodeBit nd := by
  by_cases h : nd.CurValue = ZERO <;> simp [nodeBit, Node.ReadValue, h]

/-- The accumulation loop computes the same value on collapsed inputs. -/
theorem collapse_foldl (k : GateKind) (ins : List (Option Node)) :
    ∀ acc : Nat,
      (ins.map collapseInput).foldl
        (fun acc o => match o with | none => acc | some nd => gateOp k acc (nodeBit nd)) acc
      = ins.foldl
        (fun acc o => match o with | none => acc | some nd => gateOp k acc (nodeBit nd)) acc := by
  induction ins with
  | nil => exact fun _ => rfl
  | cons o os ih =>
    intro acc
    cases o with
    | none => simpa [collapseInput] using ih acc
    | some nd => simpa [collapseInput, nodeBit_collapse] using ih (gateOp k acc (nodeBit nd))

/-- The recorded `inputValues` bits agree on collapsed inputs. -/
theorem collapse_bits (ins : List (Option Node)) :
    (ins.filterMap collapseInput).map nodeBit = (ins.filterMap id).map nodeBit := by
  induction ins with
  | nil => rfl
  | cons o os ih =>
    cases o with
    | none => simpa [collapseInput] using ih
    | some nd => simp [collapseInput, nodeBit_collapse, ih]

/-- `Calculate` commutes with collapsing every input to its two-valued
reading. -/
theorem calculate_collapse (g : ComboLogicGate) :
    (collapseInputs g).Calculate = collapseInputs g.Calculate := by
  unfold ComboLogicGate.Calculate collapseInputs
  simp [calcTemp, rawFold, collapse_foldl, collapse_bits]

/-- `PreCalc`'s returned change flag is unchanged by collapsing inputs. -/
theorem precalc_collapse (g : ComboLogicGate) :
    ((collapseInputs g).PreCalc).1 = (g.PreCalc).1 := by
  simp [ComboLogicGate.PreCalc, collapseInputs, calcTemp, rawFold, collapse_foldl]

/-- Claim C9: the per-input read of `Calculate`/`PreCalc` maps ONE, X, U and
Z all to logic 1 and only ZERO to logic 0, and consequently both functions
are unchanged when every input value is collapsed to that two-valued
reading. -/
theorem gate_reads_nonzero_as_one :
    (∀ (nm : String) (op : Int),
      nodeBit ⟨nm, ONE, op⟩ = 1 ∧ nodeBit ⟨nm, X, op⟩ = 1 ∧ nodeBit ⟨nm, U, op⟩ = 1 ∧
      nodeBit ⟨nm, Z, op⟩ = 1 ∧ nodeBit ⟨nm, ZERO, op⟩ = 0) ∧
    (∀ g : ComboLogicGate, (collapseInputs g).Calculate = collapseInputs g.Calculate) ∧
    (∀ g : ComboLogicGate, ((collapseInputs g).PreCalc).1 = (g.PreCalc).1) :=
  ⟨fun _ _ => ⟨rfl, rfl, rfl, rfl, rfl⟩, calculate_collapse, precalc_collapse⟩

/-- Zero output occurrences means no combinational gate drives the node. -/
theorem output_occurances_eq_zero (c : CircuitNet) (nm : String) :
    output_occurances c nm = 0 ↔ ∀ g ∈ c.comps, g.output.name ≠ nm := by
  simp [output_occurances, List.countP_eq_zero]

/-- Zero input occurrences means no combinational gate reads the node. -/
theorem input_occurances_eq_zero (c : CircuitNet) (nm : String) :
    input_occurances c nm = 0 ↔ ∀ g ∈ c.comps, nm ∉ g.inputNames := by
  simp only [input_occurances, List.sum_eq_zero_iff, List.mem_map]
  constructor
  · intro h g hg hmem
    have hz := h _ ⟨g, hg, rfl⟩
    rw [List.countP_eq_zero] at hz
    exact hz nm hmem (by simp)
  · intro h x hx
    obtain ⟨g, hg, rfl⟩ := hx
    rw [List.countP_eq_zero]
    intro s hs hbeq
    rw [beq_iff_eq] at hbeq
    exact h g hg (hbeq ▸ hs)

/-- Claim C2 (amended): after `FindIOs`, a node name is in the input set iff
it never appears as the output of any combinational gate, and in the output
set iff it never appears as an input of any combinational gate; the DFF
array is not consulted. -/
theorem findIOs_classification (c : CircuitNet) (nm : String) (h : nm ∈ c.nodeNames) :
    (nm ∈ inputnodes c ↔ ∀ g ∈ c.comps, g.output.name ≠ nm) ∧
    (nm ∈ outputnodes c ↔ ∀ g ∈ c.comps, nm ∉ g.inputNames) := by
  constructor
  · simp [inputnodes, List.mem_filter, h, output_occurances_eq_zero]
  · simp [outputnodes, List.mem_filter, h, input_occurances_eq_zero]

/-- Witness for the amended claim C2, at node `CLK` of the one-DFF
circuit. -/
theorem findIOs_classification_witness :
    ("CLK" ∈ inputnodes cDff ↔ ∀ g ∈ cDff.comps, g.output.name ≠ "CLK") ∧
    ("CLK" ∈ outputnodes cDff ↔ ∀ g ∈ cDff.comps, "CLK" ∉ g.inputNames) :=
  findIOs_classification cDff "CLK" (by decide)

/-- Counterexample to claim C2 as stated: in the circuit of the netlist
`Q .DFF 1 1 D CLK Q Qn`, the node `Q` is placed in the input set by
`FindIOs` although it appears as the Q output of a flip-flop, because
`FindIOs` only inspects the combinational gates. -/
theorem findIOs_ignores_dffs :
    ¬ (("Q" ∈ inputnodes cDff) ↔ NeverComponentOutput cDff "Q") := by
  intro hiff
  have hmem : "Q" ∈ inputnodes cDff := by decide
  have hno := hiff.mp hmem
  exact (hno.2 (cDff.dffs.get ⟨0, by decide⟩) (by decide)).1 rfl

/-- Claim C5, the code evaluated at the failing input: for the netlist
`Q .DFF 1 1 D CLK Q Qn` with an empty stimulus file, the state at the start
of the timing-simulation main loop has an empty event queue (so no
NodeUpdate is pending on Q or Qn) yet both Q and Qn hold ZERO, so Qn is not
the complement of Q (the DFF seeding block, digisim.cpp lines 1213-1216, is
commented out). -/
theorem dff_init_no_complement :
    c5State.queue = [] ∧
    nodeValueIn c5State "Q" = ZERO ∧
    nodeValueIn c5State "Qn" = ZERO ∧
    nodeValueIn c5State "Qn" ≠ complementLV (nodeValueIn c5State "Q") := by
  decide

/-- One accumulation step of the gate loop agrees with the boolean operation
when the input holds a two-valued logic value. -/
theorem gateOp_bit (k : GateKind) (b : Bool) (nd : Node)
    (h : nd.CurValue = ZERO ∨ nd.CurValue = ONE) :
    gateOp k (if b then 1 else 0) (nodeBit nd)
      = if specOp k b (toBitSpec nd.CurValue) then 1 else 0 := by
  cases k <;> cases b <;> rcases h with h | h <;>
    simp [gateOp, specOp, nodeBit, toBitSpec, Node.ReadValue, h]

/-- The whole gate loop agrees with the boolean fold over the present input
bits when all present inputs hold two-valued logic values. -/
theorem foldl_bits (k : GateKind) :
    ∀ (ins : List (Option Node)) (b : Bool),
      (∀ nd ∈ ins.filterMap id, nd.CurValue = ZERO ∨ nd.CurValue = ONE) →
      ins.foldl
        (fun acc o => match o with | none => acc | some nd => gateOp k acc (nodeBit nd))
        (if b then 1 else 0)
      = if ((ins.filterMap id).map (fun nd => toBitSpec nd.CurValue)).foldl (specOp k) b
        then 1 else 0 := by
  intro ins
  induction ins with
  | nil => exact fun _ _ => rfl
  | cons o os ih =>
    intro b h
    cases o with
    | none =>
      simpa using ih b (by simpa using h)
    | some nd =>
      have hnd : nd.CurValue = ZERO ∨ nd.CurValue = ONE := h nd (by simp)
      have hrest : ∀ x ∈ os.filterMap id, x.CurValue = ZERO ∨ x.CurValue = ONE := by
        intro x hx
        exact h x (by simp [hx])
      have step := gateOp_bit k b nd hnd
      simp only [List.foldl_cons, step]
      simpa using ih (specOp k b (toBitSpec nd.CurValue)) hrest

/-- `specReduce` decomposed into fold plus final negation, per kind. -/
theorem specReduce_cases (k : GateKind) (bs : List Bool) :
    specReduce k bs
      = if gateNeg k then !(bs.foldl (specOp k) (specInit k))
        else bs.foldl (specOp k) (specInit k) := by
  cases k <;> rfl

/-- `tempoutputValue` as computed by `Calculate`/`PreCalc` equals the spec
boolean function of the present input bits, encoded as 0/1. -/
theorem calcTemp_eq_spec (k : GateKind) (ins : List (Option Node))
    (h : ∀ nd ∈ ins.filterMap id, nd.CurValue = ZERO ∨ nd.CurValue = ONE) :
    calcTemp k ins
      = if specReduce k ((ins.filterMap id).map (fun nd => toBitSpec nd.CurValue))
        then 1 else 0 := by
  have hinit : gateInit k = (if specInit k then 1 else 0) := by cases k <;> rfl
  have hraw : rawFold k ins
      = if ((ins.filterMap id).map (fun nd => toBitSpec nd.CurValue)).foldl
            (specOp k) (specInit k)
        then 1 else 0 := by
    rw [rawFold, hinit]
    exact foldl_bits k ins (specInit k) h
  unfold calcTemp
  rw [hraw, specReduce_cases]
  cases hb : ((ins.filterMap id).map (fun nd => toBitSpec nd.CurValue)).foldl
      (specOp k) (specInit k) <;> cases hn : gateNeg k <;> simp [hn]

/-- Claim C4: on a gate whose present inputs all hold two-valued logic
values, `Calculate()` commits the spec boolean function over exactly the
present inputs (absent slots contributing the identity element), and sets
`delay` to `rise_Time` on a 0 to 1 committed-output transition, `fall_Time`
on a 1 to 0 transition, and 0 when the committed output is unchanged. -/
theorem gate_evaluate_matches_spec (g : ComboLogicGate)
    (h : ∀ nd ∈ g.inputs.filterMap id, nd.CurValue = ZERO ∨ nd.CurValue = ONE) :
    GateEvalSpec g := by
  have hct : calcTemp g.kind g.inputs
      = if specReduce g.kind (specBits g) then 1 else 0 :=
    calcTemp_eq_spec g.kind g.inputs h
  have hout : g.Calculate.outputValue = calcTemp g.kind g.inputs := rfl
  have hov : g.Calculate.outVal
      = (if calcTemp g.kind g.inputs = 0 then ZERO else ONE) := rfl
  have hdel : g.Calculate.delay
      = (if calcTemp g.kind g.inputs = 0 ∧ g.outputValue = 1 then g.fall_Time
         else if calcTemp g.kind g.inputs = 1 ∧ g.outputValue = 0 then g.rise_Time
         else 0) := rfl
  refine ⟨by rw [hout, hct], ?_, ?_, ?_, ?_⟩
  · rw [hov, hct]
    cases hb : specReduce g.kind (specBits g) <;> simp [hb]
  · intro hEq
    rw [hout] at hEq
    rw [hdel]
    split_ifs with h1 h2
    · exfalso; omega
    · exfalso; omega
    · rfl
  · intro h0 h1
    rw [hout] at h1
    rw [hdel]
    split_ifs with ha hb
    · exfalso; omega
    · rfl
    · exact absurd ⟨h1, h0⟩ hb
  · intro h0 h1
    rw [hout] at h1
    rw [hdel]
    split_ifs with ha hb
    · rfl
    · exfalso; omega
    · exact absurd ⟨h1, h0⟩ ha

/-- Witness for claim C4: the sample NAND gate with present inputs ONE and
ZERO evaluates to 1 and schedules its rise delay. -/
theorem gate_evaluate_matches_spec_witness : GateEvalSpec sampleGate :=
  gate_evaluate_matches_spec sampleGate (by decide)

/-- `maxDetected` of a cons. -/
theorem maxDetected_cons (t : TrialResponse) (l : List TrialResponse) :
    maxDetected (t :: l) = max t.detectedFaults (maxDetected l) := rfl

/-- The maximum detected-fault count of a non-empty trial list is attained
by some trial. -/
theorem exists_mem_maxDetected (cur : TrialResponse) (rs : List TrialResponse) :
    ∃ t ∈ cur :: rs, t.detectedFaults = maxDetected (cur :: rs) := by
  induction rs generalizing cur with
  | nil =>
    exact ⟨cur, by simp, by simp [maxDetected]⟩
  | cons x xs ih =>
    obtain ⟨t, ht, hd⟩ := ih x
    by_cases h : maxDetected (x :: xs) ≤ cur.detectedFaults
    · refine ⟨cur, by simp, ?_⟩
      rw [maxDetected_cons]
      omega
    · refine ⟨t, by simp only [List.mem_cons] at ht ⊢; tauto, ?_⟩
      rw [maxDetected_cons, hd]
      omega

/-- `std::max_element` with the strict count comparator selects exactly the
first trial attaining the maximum detected-fault count. -/
theorem maxElementAux_eq_firstMax (rs : List TrialResponse) :
    ∀ cur : TrialResponse, maxElementAux cur rs = firstMaxTrial (cur :: rs) cur := by
  induction rs with
  | nil =>
    intro cur
    simp [maxElementAux, firstMaxTrial, maxDetected]
  | cons x xs ih =>
    intro cur
    rw [maxElementAux, ih]
    have h1 := maxDetected_cons cur (x :: xs)
    have h2 := maxDetected_cons x xs
    have h3 := maxDetected_cons cur xs
    by_cases hlt : cur.detectedFaults < x.detectedFaults
    · rw [if_pos hlt]
      have hM : maxDetected (cur :: x :: xs) = maxDetected (x :: xs) := by omega
      have hcur : ¬ (cur.detectedFaults == maxDetected (cur :: x :: xs)) = true := by
        simp only [beq_iff_eq]
        omega
      obtain ⟨t, htmem, htd⟩ := exists_mem_maxDetected x xs
      obtain ⟨u, hu⟩ : ∃ u,
          (x :: xs).find? (fun t => t.detectedFaults == maxDetected (x :: xs)) = some u := by
        rw [← Option.isSome_iff_exists, List.find?_isSome]
        exact ⟨t, htmem, by simp [htd]⟩
      have hs1 : (cur :: x :: xs).find?
            (fun t => t.detectedFaults == maxDetected (cur :: x :: xs))
          = (x :: xs).find?
            (fun t => t.detectedFaults == maxDetected (cur :: x :: xs)) :=
        List.find?_cons_of_neg _ hcur
      unfold firstMaxTrial
      rw [hs1, hM, hu]
    · rw [if_neg hlt]
      have hM : maxDetected (cur :: x :: xs) = maxDetected (cur :: xs) := by omega
      by_cases hc : cur.detectedFaults = maxDetected (cur :: x :: xs)
      · have hs1 : (cur :: x :: xs).find?
              (fun t => t.detectedFaults == maxDetected (cur :: x :: xs)) = some cur :=
          List.find?_cons_of_pos _ (by simp only [beq_iff_eq]; omega)
        have hs2 : (cur :: xs).find?
              (fun t => t.detectedFaults == maxDetected (cur :: xs)) = some cur :=
          List.find?_cons_of_pos _ (by simp only [beq_iff_eq]; omega)
        unfold firstMaxTrial
        rw [hs1, hs2]
      · have hx : ¬ (x.detectedFaults == maxDetected (cur :: x :: xs)) = true := by
          simp only [beq_iff_eq]
          omega
        have hcur1 : ¬ (cur.detectedFaults == maxDetected (cur :: x :: xs)) = true := by
          simp only [beq_iff_eq]
          omega
        have hcur2 : ¬ (cur.detectedFaults == maxDetected (cur :: xs)) = true := by
          simp only [beq_iff_eq]
          omega
        have hs1 : (cur :: x :: xs).find?
              (fun t => t.detectedFaults == maxDetected (cur :: x :: xs))
            = (x :: xs).find?
              (fun t => t.detectedFaults == maxDetected (cur :: x :: xs)) :=
          List.find?_cons_of_neg _ hcur1
        have hs2 : (x :: xs).find?
              (fun t => t.detectedFaults == maxDetected (cur :: x :: xs))
            = xs.find?
              (fun t => t.detectedFaults == maxDetected (cur :: x :: xs)) :=
          List.find?_cons_of_neg _ hx
        have hs3 : (cur :: xs).find?
              (fun t => t.detectedFaults == maxDetected (cur :: xs))
            = xs.find?
              (fun t => t.detectedFaults == maxDetected (cur :: xs)) :=
          List.find?_cons_of_neg _ hcur2
        unfold firstMaxTrial
        rw [hs3, hs1, hs2, hM]

/-- Claim C8: each `Generate` iteration selects the first trial with the
maximum detected-fault count; when that maximum is non-zero its pattern is
appended to the output and exactly its detected faulty circuits are removed
from the remaining set (when it is zero nothing is emitted or removed); and
the while-loop runs exactly while the cumulative coverage is below
`required_coverage - 0.001`, stopping as soon as it is at least that. -/
theorem faultgen_generate_spec (st : GenState) (tf : Nat) (r : TrialResponse)
    (rs : List TrialResponse) (required : ℚ) (batch : List TrialResponse)
    (rest : List (List TrialResponse)) :
    (maxElementAux r rs = firstMaxTrial (r :: rs) r) ∧
    ((maxElementAux r rs).detectedFaults ≠ 0 →
      (generateStep st tf (r :: rs)).emitted
        = st.emitted ++ [(maxElementAux r rs).testInputs] ∧
      (generateStep st tf (r :: rs)).faultyCircuits
        = st.faultyCircuits.filter (fun c => c ∉ (maxElementAux r rs).bustedCircuits)) ∧
    ((maxElementAux r rs).detectedFaults = 0 →
      (generateStep st tf (r :: rs)).faultyCircuits = st.faultyCircuits ∧
      (generateStep st tf (r :: rs)).emitted = st.emitted) ∧
    (st.total_coverage ≥ required - 1/1000 →
      generateLoop required tf (batch :: rest) st = st) ∧
    (st.total_coverage < required - 1/1000 →
      generateLoop required tf (batch :: rest) st
        = generateLoop required tf rest (generateStep st tf batch)) := by
  refine ⟨maxElementAux_eq_firstMax rs r, ?_, ?_, ?_, ?_⟩
  · intro h
    simp [generateStep, h]
  · intro h
    simp [generateStep, h]
  · intro h
    have hq : ¬ (required - st.total_coverage > 1/1000) := by linarith
    rw [generateLoop, if_neg hq]
  · intro h
    have hq : required - st.total_coverage > 1/1000 := by linarith
    rw [generateLoop, if_pos hq]

/-- Witness for claim C8: a non-zero best trial emits its pattern, and a
state whose coverage already meets the target stops the loop unchanged. -/
theorem faultgen_generate_spec_witness :
    (generateStep genSt0 2 [trialA]).emitted = genSt0.emitted ++ [trialA.testInputs] ∧
    generateLoop (1/2 : ℚ) 2 [[trialA]] genSt1 = genSt1 := by
  constructor
  · exact ((faultgen_generate_spec genSt0 2 trialA [] (1/2) [trialA] []).2.1
      (by decide)).1
  · exact (faultgen_generate_spec genSt1 2 trialA [] (1/2) [trialA] []).2.2.2.1
      (by norm_num [genSt1])

/-- Reading a set position. -/
theorem elAt_set_self (l : List Event) (i : Nat) (v : Event) (h : i < l.length) :
    elAt (l.set i v) i = v := by
  simp [elAt, List.getD_eq_getElem?_getD, List.getElem?_set_self h]

/-- Reading away from a set position. -/
theorem elAt_set_ne (l : List Event) (i j : Nat) (v : Event) (h : i ≠ j) :
    elAt (l.set i v) j = elAt l j := by
  simp [elAt, List.getD_eq_getElem?_getD, List.getElem?_set_ne h]

/-- Reading inside the prefix of an append. -/
theorem elAt_append_lt (l : List Event) (v : Event) (i : Nat) (h : i < l.length) :
    elAt (l ++ [v]) i = elAt l i := by
  simp [elAt, List.getD_eq_getElem?_getD, List.getElem?_append, h]

/-- Reading the appended element. -/
theorem elAt_append_len (l : List Event) (v : Event) :
    elAt (l ++ [v]) l.length = v := by
  simp [elAt, List.getD_eq_getElem?_getD, List.getElem?_concat_length]

/-- Reading inside a take. -/
theorem elAt_take (l : List Event) (n i : Nat) (h : i < n) :
    elAt (l.take n) i = elAt l i := by
  simp [elAt, List.getD_eq_getElem?_getD, List.getElem?_take, h]

/-- An in-range read is a member. -/
theorem elAt_mem (l : List Event) (i : Nat) (h : i < l.length) : elAt l i ∈ l := by
  have he : elAt l i = l[i] := by
    simp [elAt, List.getD_eq_getElem?_getD, List.getElem?_eq_getElem h]
  rw [he]
  exact List.getElem_mem h

/-- Every member is an in-range read. -/
theorem mem_elAt (l : List Event) (e : Event) (h : e ∈ l) :
    ∃ i, i < l.length ∧ elAt l i = e := by
  rw [List.mem_iff_getElem] at h
  obtain ⟨i, hi, he⟩ := h
  exact ⟨i, hi, by simp [elAt, List.getD_eq_getElem?_getD, List.getElem?_eq_getElem hi, he]⟩

/-- The sift-up loop permutes in place: it preserves length. -/
theorem pushHeapAux_length (fuel : Nat) :
    ∀ (l : List Event) (hole : Nat) (v : Event),
      (pushHeapAux fuel l hole v).length = l.length := by
  induction fuel with
  | zero => intro l hole v; simp [pushHeapAux]
  | succ fuel ih =>
    intro l hole v
    rw [pushHeapAux]
    split_ifs with h0 hcmp
    · simp
    · rw [ih, List.length_set]
    · simp

/-- The hole descent preserves length. -/
theorem adjustDown_length (fuel : Nat) :
    ∀ (l : List Event) (hole len : Nat),
      (adjustDown fuel l hole len).1.length = l.length := by
  induction fuel with
  | zero => intro l hole len; rfl
  | succ fuel ih =>
    intro l hole len
    rw [adjustDown]
    split_ifs with hb1 hb2
    · rw [ih, List.length_set]
    · simp
    · rfl

/-- The chosen child of the descent: position and minimality. -/
theorem minChild_spec (l : List Event) (hole : Nat) :
    (minChild l hole = 2 * hole + 1 ∨ minChild l hole = 2 * hole + 2) ∧
    (elAt l (minChild l hole)).eventTime ≤ (elAt l (2 * hole + 1)).eventTime ∧
    (elAt l (minChild l hole)).eventTime ≤ (elAt l (2 * hole + 2)).eventTime := by
  unfold minChild
  have h1 : 2 * (hole + 1) - 1 = 2 * hole + 1 := by omega
  have h2 : 2 * (hole + 1) = 2 * hole + 2 := by omega
  rw [h1, h2]
  split_ifs with h
  · simp only [LessThanTime, decide_eq_true_eq] at h
    exact ⟨Or.inl rfl, le_refl _, le_of_lt h⟩
  · simp only [LessThanTime, decide_eq_true_eq, not_lt] at h
    exact ⟨Or.inr rfl, h, le_refl _⟩

/-- The hole descent keeps the hole inside the working range. -/
theorem adjustDown_hole_lt (fuel : Nat) :
    ∀ (l : List Event) (hole len : Nat), hole < len →
      (adjustDown fuel l hole len).2 < len := by
  induction fuel with
  | zero => intro l hole len h; exact h
  | succ fuel ih =>
    intro l hole len h
    rw [adjustDown]
    split_ifs with hb1 hb2
    · obtain ⟨hc, _, _⟩ := minChild_spec l hole
      exact ih _ _ _ (by omega)
    · simp only []
      omega
    · exact h

/-- Sift-up correctness: if the array is a heap except around the hole (the
sift value is below the hole's children and the hole's parent is below the
hole's children), the sifted array is a heap. -/
theorem pushHeapAux_isHeap (fuel : Nat) :
    ∀ (l : List Event) (hole : Nat) (v : Event),
      hole < fuel →
      hole < l.length →
      (∀ i, 0 < i → i < l.length → i ≠ hole → (i - 1) / 2 ≠ hole →
        (elAt l ((i - 1) / 2)).eventTime ≤ (elAt l i).eventTime) →
      (∀ i, 0 < i → i < l.length → (i - 1) / 2 = hole →
        v.eventTime ≤ (elAt l i).eventTime) →
      (0 < hole → ∀ i, 0 < i → i < l.length → (i - 1) / 2 = hole →
        (elAt l ((hole - 1) / 2)).eventTime ≤ (elAt l i).eventTime) →
      IsHeap (pushHeapAux fuel l hole v) := by
  induction fuel with
  | zero =>
    intro l hole v hf _ _ _ _
    exact absurd hf (Nat.not_lt_zero hole)
  | succ fuel ih =>
    intro l hole v hf hlen hA hB hG
    rw [pushHeapAux]
    split_ifs with h0 hcmp
    · subst h0
      intro i hi hilen
      rw [List.length_set] at hilen
      by_cases hp : (i - 1) / 2 = 0
      · rw [hp, elAt_set_self l 0 v (by omega), elAt_set_ne l 0 i v (by omega)]
        exact hB i hi hilen hp
      · rw [elAt_set_ne l 0 ((i - 1) / 2) v (fun h => hp h.symm),
            elAt_set_ne l 0 i v (by omega)]
        exact hA i hi hilen (by omega) hp
    · have hc : v.eventTime < (elAt l ((hole - 1) / 2)).eventTime := by
        simpa [LessThanTime] using hcmp
      apply ih
      · omega
      · rw [List.length_set]; omega
      · intro i hi hilen hine hipar
        rw [List.length_set] at hilen
        by_cases hih : i = hole
        · subst hih
          exact absurd rfl hipar
        · by_cases hpar : (i - 1) / 2 = hole
          · rw [hpar, elAt_set_self l hole _ hlen, elAt_set_ne l hole i _ (Ne.symm hih)]
            exact hG (by omega) i hi hilen hpar
          · rw [elAt_set_ne l hole ((i - 1) / 2) _ (fun h => hpar h.symm),
                elAt_set_ne l hole i _ (Ne.symm hih)]
            exact hA i hi hilen hih hpar
      · intro i hi hilen hpar
        rw [List.length_set] at hilen
        by_cases hih : i = hole
        · rw [hih, elAt_set_self l hole _ hlen]
          exact le_of_lt hc
        · rw [elAt_set_ne l hole i _ (Ne.symm hih)]
          have h1 := hA i hi hilen hih (by omega)
          rw [hpar] at h1
          exact le_of_lt (lt_of_lt_of_le hc h1)
      · intro hp0 i hi hilen hpar
        rw [List.length_set] at hilen
        have hedge : (elAt l ((((hole - 1) / 2) - 1) / 2)).eventTime
            ≤ (elAt l ((hole - 1) / 2)).eventTime :=
          hA ((hole - 1) / 2) hp0 (by omega) (by omega) (by omega)
        rw [elAt_set_ne l hole ((((hole - 1) / 2) - 1) / 2) _ (by omega)]
        by_cases hih : i = hole
        · rw [hih, elAt_set_self l hole _ hlen]
          exact hedge
        · rw [elAt_set_ne l hole i _ (Ne.symm hih)]
          have h1 := hA i hi hilen hih (by omega)
          rw [hpar] at h1
          exact le_trans hedge h1
    · have hc : (elAt l ((hole - 1) / 2)).eventTime ≤ v.eventTime := by
        simpa [LessThanTime, not_lt] using hcmp
      intro i hi hilen
      rw [List.length_set] at hilen
      by_cases hih : i = hole
      · rw [hih, elAt_set_self l hole v hlen,
            elAt_set_ne l hole ((hole - 1) / 2) v (by omega)]
        exact hc
      · by_cases hpar : (i - 1) / 2 = hole
        · rw [hpar, elAt_set_self l hole v hlen, elAt_set_ne l hole i v (Ne.symm hih)]
          exact hB i hi hilen hpar
        · rw [elAt_set_ne l hole ((i - 1) / 2) v (fun h => hpar h.symm),
              elAt_set_ne l hole i v (Ne.symm hih)]
          exact hA i hi hilen hih hpar

/-- Hole-descent correctness: starting from a heap with a hole, the descent
ends at a leaf hole with the rest of the array still a heap away from the
hole. -/
theorem adjustDown_spec (fuel : Nat) :
    ∀ (l : List Event) (hole len : Nat),
      len = l.length →
      len ≤ fuel + hole →
      hole < len →
      (∀ i, 0 < i → i < len → i ≠ hole → (i - 1) / 2 ≠ hole →
        (elAt l ((i - 1) / 2)).eventTime ≤ (elAt l i).eventTime) →
      (0 < hole → ∀ i, 0 < i → i < len → (i - 1) / 2 = hole →
        (elAt l ((hole - 1) / 2)).eventTime ≤ (elAt l i).eventTime) →
      (adjustDown fuel l hole len).1.length = l.length ∧
      (adjustDown fuel l hole len).2 < len ∧
      len ≤ 2 * (adjustDown fuel l hole len).2 + 1 ∧
      (∀ i, 0 < i → i < len → i ≠ (adjustDown fuel l hole len).2 →
        (i - 1) / 2 ≠ (adjustDown fuel l hole len).2 →
        (elAt (adjustDown fuel l hole len).1 ((i - 1) / 2)).eventTime
          ≤ (elAt (adjustDown fuel l hole len).1 i).eventTime) := by
  induction fuel with
  | zero =>
    intro l hole len _ hfuel hhole _ _
    exact absurd hfuel (by omega)
  | succ fuel ih =>
    intro l hole len hlen hfuel hhole hA hG
    rw [adjustDown]
    split_ifs with hb1 hb2
    · obtain ⟨hcases, hm1, hm2⟩ := minChild_spec l hole
      have hr : 2 * hole + 2 < len := by omega
      have hclt : minChild l hole < len := by omega
      have hcpos : 0 < minChild l hole := by omega
      have hchole : hole < minChild l hole := by omega
      have hcpar : (minChild l hole - 1) / 2 = hole := by omega
      have hA2 : ∀ i, 0 < i → i < len → i ≠ minChild l hole →
          (i - 1) / 2 ≠ minChild l hole →
          (elAt (l.set hole (elAt l (minChild l hole))) ((i - 1) / 2)).eventTime
            ≤ (elAt (l.set hole (elAt l (minChild l hole))) i).eventTime := by
        intro i hi hilen hine hipar
        by_cases hih : i = hole
        · rw [hih, elAt_set_ne l hole ((hole - 1) / 2) _ (by omega),
              elAt_set_self l hole _ (by omega)]
          exact hG (by omega) (minChild l hole) hcpos hclt hcpar
        · by_cases hpar : (i - 1) / 2 = hole
          · have hsib : i = 2 * hole + 1 ∨ i = 2 * hole + 2 := by omega
            rw [hpar, elAt_set_self l hole _ (by omega),
                elAt_set_ne l hole i _ (Ne.symm hih)]
            rcases hsib with h | h
            · rw [h]; exact hm1
            · rw [h]; exact hm2
          · rw [elAt_set_ne l hole ((i - 1) / 2) _ (fun h => hpar h.symm),
                elAt_set_ne l hole i _ (Ne.symm hih)]
            exact hA i hi hilen hih hpar
      have hG2 : 0 < minChild l hole → ∀ i, 0 < i → i < len →
          (i - 1) / 2 = minChild l hole →
          (elAt (l.set hole (elAt l (minChild l hole))) ((minChild l hole - 1) / 2)).eventTime
            ≤ (elAt (l.set hole (elAt l (minChild l hole))) i).eventTime := by
        intro _ i hi hilen hipar
        have hine : i ≠ hole := by omega
        rw [hcpar, elAt_set_self l hole _ (by omega),
            elAt_set_ne l hole i _ (Ne.symm hine)]
        have h1 := hA i hi hilen hine (by omega)
        rw [hipar] at h1
        exact h1
      obtain ⟨ih1, ih2, ih3, ih4⟩ := ih (l.set hole (elAt l (minChild l hole)))
        (minChild l hole) len (by rw [List.length_set]; exact hlen) (by omega)
        hclt hA2 hG2
      exact ⟨by rw [ih1, List.length_set], ih2, ih3, ih4⟩
    · have hlen2 : 2 ≤ len := by omega
      have hc1 : 2 * (hole + 1) - 1 = 2 * hole + 1 := by omega
      have hcl : 2 * hole + 1 = len - 1 := by omega
      refine ⟨by simp, by omega, by omega, ?_⟩
      intro i hi hilen hine hipar
      rw [hc1] at hine hipar ⊢
      by_cases hih : i = hole
      · subst hih
        rw [elAt_set_ne l i ((i - 1) / 2) _ (by omega),
            elAt_set_self l i _ (by omega)]
        exact hG hi (2 * i + 1) (by omega) (by omega) (by omega)
      · by_cases hpar : (i - 1) / 2 = hole
        · exact absurd hpar (by omega)
        · rw [elAt_set_ne l hole ((i - 1) / 2) _ (fun h => hpar h.symm),
              elAt_set_ne l hole i _ (Ne.symm hih)]
          exact hA i hi hilen hih hpar
    · exact ⟨rfl, hhole, by omega, hA⟩

/-- Every element of the sifted array comes from the array or is the sift
value. -/
theorem pushHeapAux_mem (fuel : Nat) :
    ∀ (l : List Event) (hole : Nat) (v : Event) (e : Event),
      hole < l.length →
      e ∈ pushHeapAux fuel l hole v → e ∈ l ∨ e = v := by
  induction fuel with
  | zero =>
    intro l hole v e _ he
    exact List.mem_or_eq_of_mem_set he
  | succ fuel ih =>
    intro l hole v e hh he
    rw [pushHeapAux] at he
    split_ifs at he with h0 hcmp
    · exact List.mem_or_eq_of_mem_set he
    · rcases ih _ _ _ e (by rw [List.length_set]; omega) he with h | h
      · rcases List.mem_or_eq_of_mem_set h with h2 | h2
        · exact Or.inl h2
        · exact Or.inl (h2 ▸ elAt_mem l ((hole - 1) / 2) (by omega))
      · exact Or.inr h
    · exact List.mem_or_eq_of_mem_set he

/-- Every element after the hole descent comes from the array. -/
theorem adjustDown_mem (fuel : Nat) :
    ∀ (l : List Event) (hole len : Nat),
      len ≤ l.length → hole < len →
      ∀ e ∈ (adjustDown fuel l hole len).1, e ∈ l := by
  induction fuel with
  | zero => intro l hole len _ _ e he; exact he
  | succ fuel ih =>
    intro l hole len hlen hhole e he
    rw [adjustDown] at he
    split_ifs at he with hb1 hb2
    · have hclt : minChild l hole < len := by
        obtain ⟨hc, _, _⟩ := minChild_spec l hole
        omega
      rcases List.mem_or_eq_of_mem_set
          (ih _ _ _ (by rw [List.length_set]; exact hlen) hclt e he) with h | h
      · exact h
      · exact h ▸ elAt_mem l (minChild l hole) (by omega)
    · rcases List.mem_or_eq_of_mem_set he with h | h
      · exact h
      · exact h ▸ elAt_mem l (2 * (hole + 1) - 1) (by omega)
    · exact he

/-- `Pop` removes exactly one element. -/
theorem popHeap_length (l : List Event) : (popHeap l).length = l.length - 1 := by
  match l with
  | [] => rfl
  | [x] => rfl
  | a :: b :: rest =>
    have hL : (a :: b :: rest).length = rest.length + 2 := by
      simp only [List.length_cons]
    simp only [popHeap]
    rw [pushHeapAux_length, adjustDown_length, List.length_take]
    omega

/-- `Pop` keeps a heap a heap. -/
theorem popHeap_isHeap (l : List Event) (hl : IsHeap l) : IsHeap (popHeap l) := by
  match l with
  | [] =>
    intro i hi hilen
    simp [popHeap] at hilen
  | [x] =>
    intro i hi hilen
    simp [popHeap] at hilen
  | a :: b :: rest =>
    have hL : (a :: b :: rest).length = rest.length + 2 := by
      simp only [List.length_cons]
    have hw : ((a :: b :: rest).take ((a :: b :: rest).length - 1)).length
        = (a :: b :: rest).length - 1 := by
      rw [List.length_take]
      exact Nat.min_eq_left (by omega)
    have hA : ∀ i, 0 < i → i < (a :: b :: rest).length - 1 → i ≠ 0 →
        (i - 1) / 2 ≠ 0 →
        (elAt ((a :: b :: rest).take ((a :: b :: rest).length - 1)) ((i - 1) / 2)).eventTime
          ≤ (elAt ((a :: b :: rest).take ((a :: b :: rest).length - 1)) i).eventTime := by
      intro i hi hilen _ _
      rw [elAt_take _ _ _ hilen, elAt_take _ _ _ (by omega)]
      exact hl i hi (by omega)
    obtain ⟨hlen', hh2, hleaf, hA'⟩ := adjustDown_spec ((a :: b :: rest).length - 1)
      ((a :: b :: rest).take ((a :: b :: rest).length - 1))
      0 ((a :: b :: rest).length - 1)
      hw.symm (by omega) (by omega)
      hA (by intro h; exact absurd h (lt_irrefl 0))
    show IsHeap (pushHeapAux _ _ _ _)
    apply pushHeapAux_isHeap
    · omega
    · rw [hlen', hw]; exact hh2
    · intro i hi hilen hine hipar
      rw [hlen', hw] at hilen
      exact hA' i hi hilen hine hipar
    · intro i hi hilen hpar
      rw [hlen', hw] at hilen
      exact absurd hilen (by omega)
    · intro hpos i hi hilen hpar
      rw [hlen', hw] at hilen
      exact absurd hilen (by omega)

/-- Every element after a `Pop` was in the queue before. -/
theorem popHeap_subset (l : List Event) : ∀ e ∈ popHeap l, e ∈ l := by
  match l with
  | [] => intro e he; simp [popHeap] at he
  | [x] => intro e he; simp [popHeap] at he
  | a :: b :: rest =>
    intro e he
    have hL : (a :: b :: rest).length = rest.length + 2 := by
      simp only [List.length_cons]
    have hw : ((a :: b :: rest).take ((a :: b :: rest).length - 1)).length
        = (a :: b :: rest).length - 1 := by
      rw [List.length_take]
      exact Nat.min_eq_left (by omega)
    simp only [popHeap] at he
    rcases pushHeapAux_mem _ _ _ _ e
        (by rw [adjustDown_length, hw]; exact adjustDown_hole_lt _ _ _ _ (by omega))
        he with h | h
    · exact List.take_subset _ _
        (adjustDown_mem _ _ _ _ (le_of_eq hw.symm) (by omega) e h)
    · exact h ▸ elAt_mem _ _ (by omega)

/-- In a heap, the root carries the smallest scheduled time. -/
theorem isHeap_root_min (l : List Event) (hl : IsHeap l) :
    ∀ i, i < l.length → (elAt l 0).eventTime ≤ (elAt l i).eventTime := by
  intro i
  induction i using Nat.strong_induction_on with
  | _ i ih =>
    intro hi
    rcases Nat.eq_zero_or_pos i with h0 | hpos
    · subst h0; exact le_refl _
    · exact le_trans (ih ((i - 1) / 2) (by omega) (by omega)) (hl i hpos hi)

/-- `Append` keeps a heap a heap. -/
theorem pushHeap_isHeap (l : List Event) (v : Event) (hl : IsHeap l) :
    IsHeap (pushHeap l v) := by
  apply pushHeapAux_isHeap
  · omega
  · simp only [List.length_append, List.length_singleton]
    omega
  · intro i hi hilen hine hipar
    simp only [List.length_append, List.length_singleton] at hilen
    have hi2 : i < l.length := by omega
    rw [elAt_append_lt l v i hi2, elAt_append_lt l v ((i - 1) / 2) (by omega)]
    exact hl i hi hi2
  · intro i hi hilen hpar
    simp only [List.length_append, List.length_singleton] at hilen
    exact absurd hilen (by omega)
  · intro hpos i hi hilen hpar
    simp only [List.length_append, List.length_singleton] at hilen
    exact absurd hilen (by omega)

/-- The head of a drain is an element of the drained queue. -/
theorem drainHeapFuel_head (fuel : Nat) (m : List Event) (b : Event)
    (hb : b ∈ (drainHeapFuel fuel m).head?) : b ∈ m := by
  cases fuel with
  | zero => simp [drainHeapFuel] at hb
  | succ fuel =>
    rw [drainHeapFuel] at hb
    split_ifs at hb with hm
    · simp at hb
    · simp only [List.head?_cons, Option.mem_def, Option.some.injEq] at hb
      subst hb
      exact elAt_mem m 0 (List.length_pos.mpr hm)

/-- Repeated Top-then-Pop on a heap hands events out in weakly ascending
scheduled-time order. -/
theorem drainHeapFuel_sorted (fuel : Nat) :
    ∀ l : List Event, IsHeap l →
      List.Chain' (fun a b => a.eventTime ≤ b.eventTime) (drainHeapFuel fuel l) := by
  induction fuel with
  | zero => intro l _; simp [drainHeapFuel]
  | succ fuel ih =>
    intro l hl
    rw [drainHeapFuel]
    split_ifs with hnil
    · simp
    · rw [List.chain'_cons']
      refine ⟨?_, ih (popHeap l) (popHeap_isHeap l hl)⟩
      intro b hb
      obtain ⟨i, hi, he⟩ :=
        mem_elAt l b (popHeap_subset l b (drainHeapFuel_head fuel (popHeap l) b hb))
      rw [← he]
      exact isHeap_root_min l hl i hi

/-- Pushing any sequence of events onto an empty queue yields a heap. -/
theorem foldl_pushHeap_isHeap (es : List Event) :
    ∀ l : List Event, IsHeap l → IsHeap (es.foldl pushHeap l) := by
  induction es with
  | nil => exact fun l hl => hl
  | cons e es ih => exact fun l hl => ih (pushHeap l e) (pushHeap_isHeap l e hl)

/-- Claim C1 (amended): for every sequence of events pushed onto the
EventQueue, repeated Top-then-Pop returns them in weakly ascending
scheduled-time order; events with equal scheduled time carry no further
ordering (the comparator `LessThanTime` uses only `eventTime`, with no
insertion counter), so the FIFO tie-break of the original claim does not
hold - see the counterexample. -/
theorem eventQueue_drain_sorted (es : List Event) :
    List.Chain' (fun a b => a.eventTime ≤ b.eventTime)
      (drainHeap (es.foldl pushHeap [])) := by
  rw [drainHeap]
  exact drainHeapFuel_sorted _ _
    (foldl_pushHeap_isHeap es [] (fun i hi hilen => by simp at hilen))

/-- Counterexample to claim C1 as stated: four events pushed with the same
scheduled time 5 come back in the order 1, 3, 2, 4, not in insertion order,
so equal-time events are not returned FIFO. -/
theorem eventQueue_tie_not_fifo :
    (∀ e ∈ [tieEvent 1, tieEvent 2, tieEvent 3, tieEvent 4], e.eventTime = 5) ∧
    drainHeap ([tieEvent 1, tieEvent 2, tieEvent 3, tieEvent 4].foldl pushHeap [])
      = [tieEvent 1, tieEvent 3, tieEvent 2, tieEvent 4] ∧
    drainHeap ([tieEvent 1, tieEvent 2, tieEvent 3, tieEvent 4].foldl pushHeap [])
      ≠ [tieEvent 1, tieEvent 2, tieEvent 3, tieEvent 4] := by
  decide

end DigiSim
